import Mathlib

/-!
Verification of `src/og/workspace.py`.

A Python `str` is modelled as `List Char`, restricted to the ASCII fragment the
program's data actually inhabits (titles, slugs, branch names): `str.lower`,
`\d`, and `str.isspace` are modelled by their ASCII behaviour.  Fallible Python
code is modelled with `Option`/`Except`; nonnegative Python ints (issue
numbers) are modelled by `Nat`.
-/

namespace Og

/-- Character content of a Lean string literal, used to write concrete inputs. -/
def strChars (s : String) : List Char :=
  s.data

/-- ASCII whitespace recognised by Python `str.split()` with no argument. -/
def pyIsSpace (c : Char) : Bool :=
  decide (c = ' ' ∨ c = '\t' ∨ c = '\n' ∨ c = '\r' ∨ c = '\x0b' ∨ c = '\x0c')

/-- Test for a lower-case ASCII letter `a`-`z`. -/
def isLowerAZ (c : Char) : Bool :=
  decide (97 ≤ c.toNat ∧ c.toNat ≤ 122)

/-- Test for an upper-case ASCII letter `A`-`Z`. -/
def isUpperAZ (c : Char) : Bool :=
  decide (65 ≤ c.toNat ∧ c.toNat ≤ 90)

/-- Separator predicate of the declarative word description: any character
that is not a lower-case letter. -/
def nonLz (c : Char) : Bool :=
  !isLowerAZ c

/-- Python `str.lower` on one character (ASCII fragment): `A`-`Z` maps to
`a`-`z`, everything else is unchanged. -/
def pyToLower (c : Char) : Char :=
  if 65 ≤ c.toNat ∧ c.toNat ≤ 90 then Char.ofNat (c.toNat + 32) else c

/-- One step of `SEP_RE.sub(" ", name)` with explicit fuel.  The source pattern
is `re.compile(r"\. \-_")`: the escaped characters make it the literal
four-character sequence period, space, hyphen, underscore (not a character
class), and `re.sub` replaces each non-overlapping occurrence, scanning left to
right, with a single space. -/
def sepSubAux : Nat → List Char → List Char
  | _, [] => []
  | 0, c :: rest => c :: rest
  | f + 1, c :: rest =>
    if c :: rest.take 3 = ['.', ' ', '-', '_'] then ' ' :: sepSubAux f (rest.drop 3)
    else c :: sepSubAux f rest

/-- `SEP_RE.sub(" ", name)`: replace every occurrence of the literal sequence
`". -_"` by one space.  The fuel `l.length` is enough for the whole scan. -/
def sepSub (l : List Char) : List Char :=
  sepSubAux l.length l

/-- `TRASH_CHARS_RE.sub(" ", name)` on one character: the pattern
`[^a-zA-Z\-]` matches any single character that is not an ASCII letter and not
a hyphen, and each match is replaced by a space. -/
def trashChar (c : Char) : Char :=
  if isLowerAZ c || isUpperAZ c || c == '-' then c else ' '

/-- `name.replace("-", " ")` on one character. -/
def dashChar (c : Char) : Char :=
  if c == '-' then ' ' else c

/-- Composite character action of the trash-substitution followed by the
hyphen replacement, on strings without upper-case letters: keep `a`-`z`,
send everything else to a space. -/
def maskChar (c : Char) : Char :=
  if isLowerAZ c then c else ' '

/-- The string normalisation pipeline inside `get_slug_from_name`, before
splitting: `name.lower()`, then `SEP_RE.sub(" ", ...)`, then
`TRASH_CHARS_RE.sub(" ", ...)`, then `.replace("-", " ")`. -/
def normalized (name : List Char) : List Char :=
  ((sepSub (name.map pyToLower)).map trashChar).map dashChar

/-- Split a character list at every character satisfying `p`, keeping empty
chunks, as Python `re`/`str` splitting does between adjacent separators. -/
def pySplit (p : Char → Bool) : List Char → List (List Char)
  | [] => [[]]
  | c :: cs =>
    if p c then [] :: pySplit p cs
    else (c :: (pySplit p cs).headI) :: (pySplit p cs).tail

/-- Drop the empty chunks of a split. -/
def filterNE (L : List (List Char)) : List (List Char) :=
  L.filter (fun w => !w.isEmpty)

/-- Nonempty maximal runs of characters not satisfying the separator
predicate `p`; `wordsBy pyIsSpace` is Python `str.split()` with no argument. -/
def wordsBy (p : Char → Bool) (l : List Char) : List (List Char) :=
  filterNE (pySplit p l)

/-- The word list `name.split()` computed inside `get_slug_from_name`, after
the normalisation pipeline and before deduplication. -/
def pipelineWords (name : List Char) : List (List Char) :=
  wordsBy pyIsSpace (normalized name)

/-- Maximal runs of lower-case letters of the lowercased input: the
declarative description of `pipelineWords` proved in `pipelineWords_eq`. -/
def lowerLetterWords (name : List Char) : List (List Char) :=
  wordsBy nonLz (name.map pyToLower)

/-- Insert a word into a list already sorted by decreasing length, placing it
after every word of length at least its own (the stable position). -/
def insertByLen (w : List Char) : List (List Char) → List (List Char)
  | [] => [w]
  | x :: xs => if x.length < w.length then w :: x :: xs else x :: insertByLen w xs

/-- Python `sorted(•, key=len, reverse=True)`: a stable sort by decreasing
length, realised as stable insertion sort. -/
def sortByLenDesc (l : List (List Char)) : List (List Char) :=
  l.foldl (fun acc w => insertByLen w acc) []

/-- Python `"-".join(words)`. -/
def joinHyphen (ts : List (List Char)) : List Char :=
  List.intercalate ['-'] ts

/-- The slug computed by `get_slug_from_name` once the iteration order of the
Python `set` of words is fixed to `enum`: `"-".join(sorted(enum, key=len,
reverse=True)[:5])`.  CPython's `set` iteration order over strings is
unspecified (hash-randomised across processes), so it is passed explicitly. -/
def slugWith (enum : List (List Char)) : List Char :=
  joinHyphen ((sortByLenDesc enum).take 5)

/-- The iteration orders of `set(name.split())` the interpreter can produce:
any enumeration of the distinct words, i.e. any permutation of the
duplicate-free word list. -/
def AdmissibleEnum (name : List Char) (enum : List (List Char)) : Prop :=
  enum.Perm (pipelineWords name).dedup

instance (name : List Char) (enum : List (List Char)) :
    Decidable (AdmissibleEnum name enum) :=
  inferInstanceAs (Decidable (enum.Perm (pipelineWords name).dedup))

/-- `get_slug_from_name` with the set enumerated in first-occurrence order
(one admissible order; the theorems below quantify over all of them). -/
def get_slug_from_name (name : List Char) : List Char :=
  slugWith (pipelineWords name).dedup

/-- Structural property of a slug: it is the hyphen-join of at most five
nonempty tokens made only of lower-case letters `a`-`z`. -/
def SlugShapeOk (out : List Char) : Prop :=
  ∃ ts : List (List Char), out = joinHyphen ts ∧ ts.length ≤ 5 ∧
    ∀ t ∈ ts, t ≠ [] ∧ t.all isLowerAZ = true

/-- Decimal digit character of a value below ten (only ever applied there). -/
def digitChar : Nat → Char
  | 0 => '0'
  | 1 => '1'
  | 2 => '2'
  | 3 => '3'
  | 4 => '4'
  | 5 => '5'
  | 6 => '6'
  | 7 => '7'
  | 8 => '8'
  | _ => '9'

/-- Decimal rendering with fuel (the fuel bounds the number of digits). -/
def natStrAux : Nat → Nat → List Char
  | 0, _ => []
  | f + 1, n =>
    if n < 10 then [digitChar n]
    else natStrAux f (n / 10) ++ [digitChar (n % 10)]

/-- Python `str(n)` for a nonnegative int: decimal digits, `"0"` for zero. -/
def natStr (n : Nat) : List Char :=
  natStrAux (n + 1) n

/-- Python `int(s)` on a string of decimal digits (the only strings it is
applied to here: capture groups of `\d{4,}`). -/
def intFromDigits (cs : List Char) : Nat :=
  cs.foldl (fun a c => 10 * a + (c.toNat - 48)) 0

/-- A GitHub remote (`owner`, `repo`, `site`); the `Upstream`/`Origin`
subclasses differ only in a class-level display name, irrelevant here. -/
structure Remote where
  owner : List Char
  repo : List Char
  site : List Char
deriving DecidableEq

/-- The `Issue` dataclass: an issue number together with its remote. -/
structure Issue where
  number : Nat
  remote : Remote
deriving DecidableEq

/-- The `IssueBranch` dataclass: a branch name and its upstream remote. -/
structure IssueBranch where
  name : List Char
  upstream : Remote
deriving DecidableEq

/-- `Issue.branch(slug, sep="/")`: the name is
`f"{self.number}{sep and sep + slug}"` — Python's `and` yields the empty
`sep` itself when `sep` is falsy, so an empty separator appends nothing. -/
def Issue.branch (i : Issue) (slug : List Char) (sep : List Char) : IssueBranch :=
  { name := natStr i.number ++ (if sep = [] then sep else sep ++ slug)
    upstream := i.remote }

/-- A completed match attempt of `(\d{4,})(.+)` on `name` taking `k` digits
(`\d` modelled on its ASCII digits): at least four digits are taken, the
first `k` characters are all digits, and the remainder is a nonempty run of
non-newline characters — `.` does not match a newline, and `fullmatch`
requires the remainder to be consumed entirely by `(.+)`. -/
def MatchAt (name : List Char) (k : Nat) : Prop :=
  4 ≤ k ∧ k < name.length ∧ (name.take k).all Char.isDigit = true ∧
    (name.drop k).all (fun c => !(c = '\n')) = true

instance (name : List Char) (k : Nat) : Decidable (MatchAt name k) :=
  inferInstanceAs (Decidable (_ ∧ _ ∧ _ ∧ _))

/-- Backtracking search of `ISSUE_BRANCH_RE.fullmatch(name)` for the pattern
`(?P<issue_number>\d{4,})(?P<slug>.+)`.  The greedy `\d{4,}` first takes as
many digits as it can, then gives digits back one at a time; the first
candidate `k` (counting down) whose attempt completes (`MatchAt`) wins, and
the digit group is converted by `int`. -/
def issueSearchFrom (name : List Char) : Nat → Option Nat
  | 0 => none
  | k + 1 =>
    if MatchAt name (k + 1) then some (intFromDigits (name.take (k + 1)))
    else issueSearchFrom name k

/-- `IssueBranch.issue_number`: full-match the name against
`(?P<issue_number>\d{4,})(?P<slug>.+)` and return `int` of the digit group,
or `None` when there is no match.  The greedy scan starts at the maximal
leading digit run. -/
def IssueBranch.issue_number (b : IssueBranch) : Option Nat :=
  issueSearchFrom b.name (b.name.takeWhile Char.isDigit).length

/-- Modelled fragment of Python's builtin exception hierarchy (not part of
`src/`): `ValueError` and `LookupError` both subclass `Exception` directly,
and `LookupError`'s subclasses are `IndexError` and `KeyError`. -/
inductive PyExcClass where
  | valueError
  | lookupError
  | keyError
  | indexError
deriving DecidableEq

/-- Whether an exception class is `LookupError` or one of its subclasses. -/
def isLookupErrorClass : PyExcClass → Bool
  | .lookupError => true
  | .keyError => true
  | .indexError => true
  | .valueError => false

/-- A raised Python exception: its class and its message. -/
structure PyExc where
  cls : PyExcClass
  msg : List Char
deriving DecidableEq

/-- `get_issue_name(client, remote, number)`: the collaborator response is
modelled by its optional `"title"` field — the `match ... case {"title":
title}` branch returns the title, and any response without a `"title"` key
falls through to `raise ValueError(f"invalid issue number {number}")`. -/
def get_issue_name (respTitle : Option (List Char)) (number : Nat) :
    Except PyExc (List Char) :=
  match respTitle with
  | some title => Except.ok title
  | none => Except.error ⟨PyExcClass.valueError,
      strChars ("invalid issue number ") ++ natStr number⟩

/-- `Issue.fetch_name(client)`: delegates to `get_issue_name` with the
issue's own remote and number.  The client only serves to produce the
response, which is modelled directly. -/
def Issue.fetch_name (i : Issue) (respTitle : Option (List Char)) :
    Except PyExc (List Char) :=
  get_issue_name respTitle i.number

/-- A concrete remote used in witnesses and counterexamples. -/
def sampleRemote : Remote :=
  { owner := strChars ("octo"), repo := strChars ("og"), site := strChars ("github.com") }

theorem charOfNat_toNat {n : Nat} (h : n ≤ 122) : (Char.ofNat n).toNat = n := by
  have hv : n.isValidChar := Or.inl (by omega)
  simp only [Char.ofNat, hv, dif_pos, Char.ofNatAux, Char.toNat, UInt32.toNat]
  simp [BitVec.toNat_ofNatLt]

theorem pyToLower_not_upper (c : Char) : isUpperAZ (pyToLower c) = false := by
  unfold pyToLower
  by_cases h : 65 ≤ c.toNat ∧ c.toNat ≤ 90
  · rw [if_pos h]
    have hn : (Char.ofNat (c.toNat + 32)).toNat = c.toNat + 32 :=
      charOfNat_toNat (by omega)
    simp [isUpperAZ, hn]
    omega
  · rw [if_neg h]
    simp [isUpperAZ]
    omega

theorem eq_of_pyIsSpace {c : Char} (h : pyIsSpace c = true) :
    c = ' ' ∨ c = '\t' ∨ c = '\n' ∨ c = '\r' ∨ c = '\x0b' ∨ c = '\x0c' := by
  simpa [pyIsSpace] using h

theorem pyIsSpace_isLowerAZ_false {c : Char} (h : pyIsSpace c = true) :
    isLowerAZ c = false := by
  rcases eq_of_pyIsSpace h with h | h | h | h | h | h <;> subst h <;> decide

theorem isLowerAZ_pyIsSpace_false {c : Char} (h : isLowerAZ c = true) :
    pyIsSpace c = false := by
  cases hs : pyIsSpace c
  · rfl
  · rw [pyIsSpace_isLowerAZ_false hs] at h
    cases h

theorem pyToLower_of_space {c : Char} (h : pyIsSpace c = true) : pyToLower c = c := by
  rcases eq_of_pyIsSpace h with h | h | h | h | h | h <;> subst h <;> decide

theorem dash_trash_eq_mask {c : Char} (h : isUpperAZ c = false) :
    dashChar (trashChar c) = maskChar c := by
  by_cases hl : isLowerAZ c = true
  · have hne : (c == '-') = false := by
      cases hb : c == '-'
      · rfl
      · have hc : c = '-' := eq_of_beq hb
        subst hc
        exact absurd hl (by decide)
    simp [trashChar, dashChar, maskChar, hl, hne]
  · by_cases hd : c = '-'
    · subst hd
      decide
    · have hne : (c == '-') = false := by
        simpa using hd
      simp [trashChar, dashChar, maskChar, hl, h, hne]

theorem pySplit_ne_nil (p : Char → Bool) (l : List Char) : pySplit p l ≠ [] := by
  cases l with
  | nil => simp [pySplit]
  | cons c cs =>
    by_cases h : p c = true
    · simp [pySplit, h]
    · simp [pySplit, h]

theorem filterNE_nil_cons (L : List (List Char)) : filterNE ([] :: L) = filterNE L := by
  simp [filterNE]

theorem filterNE_cons_cons (c : Char) (w : List Char) (L : List (List Char)) :
    filterNE ((c :: w) :: L) = (c :: w) :: filterNE L := by
  simp [filterNE]

theorem pySplit_mask (x : List Char) :
    pySplit pyIsSpace (x.map maskChar) = pySplit nonLz x := by
  induction x with
  | nil => rfl
  | cons c cs ih =>
    by_cases hl : isLowerAZ c = true
    · have hm : maskChar c = c := by simp [maskChar, hl]
      have hs : pyIsSpace c = false := isLowerAZ_pyIsSpace_false hl
      simp [pySplit, hm, hs, hl, nonLz, ih]
    · have hm : maskChar c = ' ' := by simp [maskChar, hl]
      have hq : isLowerAZ c = false := by simpa using hl
      simp [pySplit, hm, hq, nonLz, ih, pyIsSpace]

theorem mem_sepSubAux {f : Nat} {t : List Char} {c : Char} (h : c ∈ sepSubAux f t) :
    c ∈ t ∨ c = ' ' := by
  induction f generalizing t with
  | zero =>
    cases t with
    | nil => simp [sepSubAux] at h
    | cons a rest => exact Or.inl (by simpa [sepSubAux] using h)
  | succ f ih =>
    cases t with
    | nil => simp [sepSubAux] at h
    | cons a rest =>
      by_cases hp : a :: rest.take 3 = ['.', ' ', '-', '_']
      · rw [sepSubAux, if_pos hp] at h
        rcases List.mem_cons.mp h with hc | hc
        · exact Or.inr hc
        · rcases ih hc with hmem | hsp
          · exact Or.inl (List.mem_cons_of_mem a (List.drop_subset 3 rest hmem))
          · exact Or.inr hsp
      · rw [sepSubAux, if_neg hp] at h
        rcases List.mem_cons.mp h with hc | hc
        · exact Or.inl (hc ▸ List.mem_cons_self a rest)
        · rcases ih hc with hmem | hsp
          · exact Or.inl (List.mem_cons_of_mem a hmem)
          · exact Or.inr hsp

theorem pySplit_sep_cons (p : Char → Bool) (c : Char) (cs : List Char)
    (h : p c = true) : pySplit p (c :: cs) = [] :: pySplit p cs := by
  simp [pySplit, h]

theorem pySplit_word_cons (p : Char → Bool) (c : Char) (cs : List Char)
    (h : p c = false) :
    pySplit p (c :: cs) = (c :: (pySplit p cs).headI) :: (pySplit p cs).tail := by
  simp [pySplit, h]

theorem pySplit_nonLz_dot (cs : List Char) :
    pySplit nonLz ('.' :: cs) = [] :: pySplit nonLz cs :=
  pySplit_sep_cons nonLz '.' cs (by decide)

theorem pySplit_nonLz_space (cs : List Char) :
    pySplit nonLz (' ' :: cs) = [] :: pySplit nonLz cs :=
  pySplit_sep_cons nonLz ' ' cs (by decide)

theorem pySplit_nonLz_dash (cs : List Char) :
    pySplit nonLz ('-' :: cs) = [] :: pySplit nonLz cs :=
  pySplit_sep_cons nonLz '-' cs (by decide)

theorem pySplit_nonLz_under (cs : List Char) :
    pySplit nonLz ('_' :: cs) = [] :: pySplit nonLz cs :=
  pySplit_sep_cons nonLz '_' cs (by decide)

theorem sepSubAux_words (f : Nat) : ∀ t : List Char, t.length ≤ f →
    filterNE (pySplit nonLz (sepSubAux f t)) = filterNE (pySplit nonLz t) ∧
    ((pySplit nonLz (sepSubAux f t)).headI = [] ↔ (pySplit nonLz t).headI = []) := by
  induction f with
  | zero =>
    intro t ht
    have h0 : t = [] := List.length_eq_zero.mp (Nat.le_zero.mp ht)
    subst h0
    exact ⟨rfl, Iff.rfl⟩
  | succ f ih =>
    intro t ht
    cases t with
    | nil => exact ⟨rfl, Iff.rfl⟩
    | cons a rest =>
      have hlen : rest.length ≤ f := by
        simpa using ht
      by_cases hp : a :: rest.take 3 = ['.', ' ', '-', '_']
      · injection hp with ha htake
        subst ha
        have hrest : rest = ' ' :: '-' :: '_' :: rest.drop 3 := by
          conv_lhs => rw [← List.take_append_drop 3 rest]
          rw [htake]
          rfl
        have hlen3 : (rest.drop 3).length ≤ f := by
          have := List.length_drop 3 rest
          omega
        obtain ⟨ihf, ihh⟩ := ih (rest.drop 3) hlen3
        rw [sepSubAux, if_pos (by rw [htake])]
        conv in ('.' :: rest) => rw [hrest]
        rw [pySplit_nonLz_dot, pySplit_nonLz_space, pySplit_nonLz_space,
          pySplit_nonLz_dash, pySplit_nonLz_under]
        constructor
        · rw [filterNE_nil_cons, filterNE_nil_cons, filterNE_nil_cons,
            filterNE_nil_cons, filterNE_nil_cons]
          exact ihf
        · rw [pySplit_nonLz_dot]
          simp [List.headI]
      · rw [sepSubAux, if_neg hp]
        obtain ⟨ihf, ihh⟩ := ih rest hlen
        by_cases hq : nonLz a = true
        · rw [pySplit_sep_cons nonLz a _ hq, pySplit_sep_cons nonLz a _ hq]
          constructor
          · rw [filterNE_nil_cons, filterNE_nil_cons]
            exact ihf
          · simp [List.headI]
        · have hqf : nonLz a = false := by
            simpa using hq
          rw [pySplit_word_cons nonLz a _ hqf, pySplit_word_cons nonLz a _ hqf]
          obtain ⟨a1, A1, hA⟩ :=
            List.exists_cons_of_ne_nil (pySplit_ne_nil nonLz (sepSubAux f rest))
          obtain ⟨b1, B1, hB⟩ :=
            List.exists_cons_of_ne_nil (pySplit_ne_nil nonLz rest)
          rw [hA, hB] at ihf ihh ⊢
          simp only [List.headI] at ihh
          simp only [List.headI, List.tail]
          constructor
          · rw [filterNE_cons_cons, filterNE_cons_cons]
            by_cases ha1 : a1 = []
            · have hb1 : b1 = [] := ihh.mp ha1
              subst ha1
              subst hb1
              rw [filterNE_nil_cons, filterNE_nil_cons] at ihf
              rw [ihf]
            · have hb1 : b1 ≠ [] := fun hb => ha1 (ihh.mpr hb)
              obtain ⟨a2, A2, ha2⟩ := List.exists_cons_of_ne_nil ha1
              obtain ⟨b2, B2, hb2⟩ := List.exists_cons_of_ne_nil hb1
              subst ha2
              subst hb2
              rw [filterNE_cons_cons, filterNE_cons_cons] at ihf
              injection ihf with h1 h2
              rw [h1, h2]
          · simp

theorem sepSub_words (t : List Char) :
    filterNE (pySplit nonLz (sepSub t)) = filterNE (pySplit nonLz t) :=
  (sepSubAux_words t.length t le_rfl).1

theorem pipelineWords_eq (name : List Char) :
    pipelineWords name = lowerLetterWords name := by
  unfold pipelineWords lowerLetterWords wordsBy normalized
  have hnoupper : ∀ c ∈ sepSub (name.map pyToLower), isUpperAZ c = false := by
    intro c hc
    have hc' : c ∈ sepSubAux (name.map pyToLower).length (name.map pyToLower) := hc
    rcases mem_sepSubAux hc' with hmem | hsp
    · rcases List.mem_map.mp hmem with ⟨a, _, rfl⟩
      exact pyToLower_not_upper a
    · subst hsp
      decide
  have hmask : ((sepSub (name.map pyToLower)).map trashChar).map dashChar
      = (sepSub (name.map pyToLower)).map maskChar := by
    rw [List.map_map]
    exact List.map_congr_left fun a ha => dash_trash_eq_mask (hnoupper a ha)
  rw [hmask, pySplit_mask]
  exact sepSub_words _

theorem headI_mem_of_ne_nil {α : Type} [Inhabited α] {l : List α} (h : l ≠ []) :
    l.headI ∈ l := by
  cases l with
  | nil => exact absurd rfl h
  | cons a t => simp [List.headI]

theorem pySplit_chars (p : Char → Bool) :
    ∀ l : List Char, ∀ w ∈ pySplit p l, ∀ c ∈ w, p c = false := by
  intro l
  induction l with
  | nil =>
    intro w hw c hc
    simp [pySplit] at hw
    subst hw
    simp at hc
  | cons a as ih =>
    intro w hw c hc
    by_cases hp : p a = true
    · rw [pySplit_sep_cons p a _ hp] at hw
      rcases List.mem_cons.mp hw with hw | hw
      · subst hw
        simp at hc
      · exact ih w hw c hc
    · have hpf : p a = false := by simpa using hp
      rw [pySplit_word_cons p a _ hpf] at hw
      rcases List.mem_cons.mp hw with hw | hw
      · subst hw
        rcases List.mem_cons.mp hc with rfl | hc'
        · exact hpf
        · have hmem : (pySplit p as).headI ∈ pySplit p as :=
            headI_mem_of_ne_nil (pySplit_ne_nil p as)
          exact ih _ hmem c hc'
      · exact ih w (List.tail_subset _ hw) c hc

theorem mem_wordsBy {p : Char → Bool} {l w : List Char} (h : w ∈ wordsBy p l) :
    w ≠ [] ∧ ∀ c ∈ w, p c = false := by
  unfold wordsBy filterNE at h
  have hmem := List.mem_of_mem_filter h
  have hkeep := List.of_mem_filter h
  constructor
  · intro hnil
    subst hnil
    simp at hkeep
  · exact pySplit_chars p l w hmem

theorem wordsBy_nil_of_all_sep {p : Char → Bool} {l : List Char}
    (h : ∀ c ∈ l, p c = true) : wordsBy p l = [] := by
  induction l with
  | nil => rfl
  | cons a as ih =>
    unfold wordsBy at ih ⊢
    rw [pySplit_sep_cons p a _ (h a (List.mem_cons_self a as)), filterNE_nil_cons]
    exact ih fun c hc => h c (List.mem_cons_of_mem a hc)

theorem pySplit_swap {p : Char → Bool} {a b : Char} (ha : p a = true)
    (hb : p b = true) :
    ∀ x y : List Char, pySplit p (x ++ a :: y) = pySplit p (x ++ b :: y) := by
  intro x y
  induction x with
  | nil =>
    rw [List.nil_append, List.nil_append, pySplit_sep_cons p a _ ha,
      pySplit_sep_cons p b _ hb]
  | cons d ds ih =>
    rw [List.cons_append, List.cons_append]
    by_cases hd : p d = true
    · rw [pySplit_sep_cons p d _ hd, pySplit_sep_cons p d _ hd, ih]
    · have hdf : p d = false := by simpa using hd
      rw [pySplit_word_cons p d _ hdf, pySplit_word_cons p d _ hdf, ih]

theorem insertByLen_perm (w : List Char) (l : List (List Char)) :
    (insertByLen w l).Perm (w :: l) := by
  induction l with
  | nil => exact List.Perm.refl _
  | cons x xs ih =>
    unfold insertByLen
    by_cases h : x.length < w.length
    · rw [if_pos h]
    · rw [if_neg h]
      exact (ih.cons x).trans (List.Perm.swap w x xs)

theorem sortByLenDesc_perm_aux (l : List (List Char)) :
    ∀ acc : List (List Char),
      (l.foldl (fun acc w => insertByLen w acc) acc).Perm (acc ++ l) := by
  induction l with
  | nil =>
    intro acc
    simp
  | cons w ws ih =>
    intro acc
    rw [List.foldl_cons]
    refine (ih (insertByLen w acc)).trans ?_
    refine (List.Perm.append_right ws (insertByLen_perm w acc)).trans ?_
    exact List.perm_middle.symm

theorem sortByLenDesc_perm (l : List (List Char)) : (sortByLenDesc l).Perm l := by
  simpa using sortByLenDesc_perm_aux l []

theorem insertByLen_sorted {w : List Char} {l : List (List Char)}
    (h : l.Pairwise (fun a b => b.length ≤ a.length)) :
    (insertByLen w l).Pairwise (fun a b => b.length ≤ a.length) := by
  induction l with
  | nil => simp [insertByLen]
  | cons x xs ih =>
    rcases List.pairwise_cons.mp h with ⟨hx, hxs⟩
    unfold insertByLen
    by_cases hlt : x.length < w.length
    · rw [if_pos hlt]
      refine List.pairwise_cons.mpr ⟨?_, h⟩
      intro b hb
      rcases List.mem_cons.mp hb with rfl | hb'
      · omega
      · have := hx b hb'
        omega
    · rw [if_neg hlt]
      refine List.pairwise_cons.mpr ⟨?_, ih hxs⟩
      intro b hb
      have hmem := (insertByLen_perm w xs).mem_iff.mp hb
      rcases List.mem_cons.mp hmem with rfl | hb'
      · omega
      · exact hx b hb'

theorem sortByLenDesc_sorted (l : List (List Char)) :
    (sortByLenDesc l).Pairwise (fun a b => b.length ≤ a.length) := by
  suffices h : ∀ acc : List (List Char),
      acc.Pairwise (fun a b => b.length ≤ a.length) →
      (l.foldl (fun acc w => insertByLen w acc) acc).Pairwise
        (fun a b => b.length ≤ a.length) by
    exact h [] (by simp)
  induction l with
  | nil =>
    intro acc hacc
    simpa using hacc
  | cons w ws ih =>
    intro acc hacc
    rw [List.foldl_cons]
    exact ih _ (insertByLen_sorted hacc)

theorem sorted_desc_unique {L1 L2 : List (List Char)} (hperm : L1.Perm L2)
    (h1 : L1.Pairwise (fun a b => b.length ≤ a.length))
    (h2 : L2.Pairwise (fun a b => b.length ≤ a.length))
    (hlen : L1.Pairwise (fun a b => a.length ≠ b.length)) : L1 = L2 := by
  have hlen2 : L2.Pairwise (fun a b => a.length ≠ b.length) :=
    (hperm.pairwise_iff fun h => h.symm).mp hlen
  have hstrict1 : L1.Pairwise (fun a b => b.length < a.length) :=
    (h1.and hlen).imp fun h => by omega
  have hstrict2 : L2.Pairwise (fun a b => b.length < a.length) :=
    (h2.and hlen2).imp fun h => by omega
  haveI : IsAntisymm (List Char) (fun a b => b.length < a.length) :=
    ⟨fun a b hab hba => by omega⟩
  exact List.eq_of_perm_of_sorted hperm hstrict1 hstrict2

theorem slugWith_eq_of_distinct_lengths {name : List Char}
    {e1 e2 : List (List Char)} (h1 : AdmissibleEnum name e1)
    (h2 : AdmissibleEnum name e2)
    (hlen : (pipelineWords name).dedup.Pairwise (fun a b => a.length ≠ b.length)) :
    slugWith e1 = slugWith e2 := by
  have hp1 : e1.Perm (pipelineWords name).dedup := h1
  have hp2 : e2.Perm (pipelineWords name).dedup := h2
  have hperm : (sortByLenDesc e1).Perm (sortByLenDesc e2) :=
    ((sortByLenDesc_perm e1).trans (hp1.trans hp2.symm)).trans
      (sortByLenDesc_perm e2).symm
  have hlen1 : (sortByLenDesc e1).Pairwise (fun a b => a.length ≠ b.length) :=
    (((sortByLenDesc_perm e1).trans hp1).pairwise_iff fun h => h.symm).mpr hlen
  have heq : sortByLenDesc e1 = sortByLenDesc e2 :=
    sorted_desc_unique hperm (sortByLenDesc_sorted e1) (sortByLenDesc_sorted e2)
      hlen1
  unfold slugWith
  rw [heq]

theorem slugShapeOk_slugWith {name : List Char} {enum : List (List Char)}
    (h : AdmissibleEnum name enum) : SlugShapeOk (slugWith enum) := by
  refine ⟨(sortByLenDesc enum).take 5, rfl, ?_, ?_⟩
  · rw [List.length_take]
    exact min_le_left _ _
  · intro t ht
    have htm : t ∈ sortByLenDesc enum := List.take_subset 5 _ ht
    have hp : enum.Perm (pipelineWords name).dedup := h
    have h1 : t ∈ enum := (sortByLenDesc_perm enum).mem_iff.mp htm
    have h2 : t ∈ (pipelineWords name).dedup := hp.mem_iff.mp h1
    have h3 : t ∈ pipelineWords name := List.mem_dedup.mp h2
    rw [pipelineWords_eq] at h3
    obtain ⟨hne, hch⟩ := mem_wordsBy h3
    refine ⟨hne, ?_⟩
    rw [List.all_eq_true]
    intro c hc
    have hcf := hch c hc
    simpa [nonLz] using hcf

/-- C1: for every title and every admissible enumeration of its distinct
words, the slug computed by `get_slug_from_name` is the hyphen-join of at most
five nonempty tokens made only of the lower-case letters `a`-`z` (so it is
lower-case, digits and punctuation are stripped, and tokens are joined by
single hyphens); the canonical `get_slug_from_name` value has the same shape. -/
theorem slug_shape_c1 (s : List Char) (enum : List (List Char))
    (h : AdmissibleEnum s enum) :
    SlugShapeOk (slugWith enum) ∧ SlugShapeOk (get_slug_from_name s) :=
  ⟨slugShapeOk_slugWith h,
    slugShapeOk_slugWith (List.Perm.refl (pipelineWords s).dedup)⟩

theorem slug_shape_c1_witness :
    AdmissibleEnum (strChars ("Hello world"))
        (pipelineWords (strChars ("Hello world"))).dedup ∧
      (SlugShapeOk (slugWith (pipelineWords (strChars ("Hello world"))).dedup) ∧
        SlugShapeOk (get_slug_from_name (strChars ("Hello world")))) :=
  ⟨by decide, slug_shape_c1 (strChars ("Hello world")) _ (by decide)⟩

/-- C2: each of period, space, hyphen and underscore is treated identically as
a token separator by `get_slug_from_name`'s word computation: replacing any
single occurrence of any of the four characters by a space leaves the word
list unchanged, and the example `"a.b-c_d e"` produces the same words as
`"a b c d e"`. -/
theorem separator_equivalence_c2 (u v : List Char) (c : Char)
    (hc : c ∈ ['.', ' ', '-', '_']) :
    pipelineWords (u ++ c :: v) = pipelineWords (u ++ ' ' :: v) ∧
      pipelineWords (strChars ("a.b-c_d e")) =
        pipelineWords (strChars ("a b c d e")) := by
  constructor
  · have hor : c = '.' ∨ c = ' ' ∨ c = '-' ∨ c = '_' := by
      simpa using hc
    have hlc : pyToLower c = c := by
      rcases hor with rfl | rfl | rfl | rfl <;> decide
    have hqc : nonLz c = true := by
      rcases hor with rfl | rfl | rfl | rfl <;> decide
    rw [pipelineWords_eq, pipelineWords_eq]
    unfold lowerLetterWords wordsBy
    rw [List.map_append, List.map_append, List.map_cons, List.map_cons, hlc]
    rw [show pyToLower ' ' = ' ' from by decide]
    congr 1
    exact pySplit_swap hqc (by decide) (u.map pyToLower) (v.map pyToLower)
  · decide

theorem separator_equivalence_c2_witness :
    '.' ∈ ['.', ' ', '-', '_'] ∧
      (pipelineWords (strChars ("x") ++ '.' :: strChars ("y")) =
          pipelineWords (strChars ("x") ++ ' ' :: strChars ("y")) ∧
        pipelineWords (strChars ("a.b-c_d e")) =
          pipelineWords (strChars ("a b c d e"))) :=
  ⟨by decide, separator_equivalence_c2 (strChars ("x")) (strChars ("y")) '.'
    (by decide)⟩

/-- C7 (counterexample): the word "on" is also a token of the normalised
title `"Fix: login page crashes on Safari!!"`, so the token set is not the
claimed five-element set `{fix, login, page, crashes, safari}`. -/
theorem slug_example_c7_counterexample :
    strChars ("on") ∈
        (pipelineWords (strChars ("Fix: login page crashes on Safari!!"))).dedup ∧
      strChars ("on") ∉ [strChars ("fix"), strChars ("login"), strChars ("page"),
        strChars ("crashes"), strChars ("safari")] := by
  decide

/-- C7 (amended): the title `"Fix: login page crashes on Safari!!"` normalises
to the six distinct tokens `fix, login, page, crashes, on, safari`; sorting by
descending length and keeping the first five yields the slug
`"crashes-safari-login-page-fix"` under every admissible set enumeration, and
in particular for `get_slug_from_name`. -/
theorem slug_example_c7 (enum : List (List Char))
    (h : AdmissibleEnum (strChars ("Fix: login page crashes on Safari!!")) enum) :
    (pipelineWords (strChars ("Fix: login page crashes on Safari!!"))).dedup =
        [strChars ("fix"), strChars ("login"), strChars ("page"),
          strChars ("crashes"), strChars ("on"), strChars ("safari")] ∧
      slugWith enum = strChars ("crashes-safari-login-page-fix") ∧
      get_slug_from_name (strChars ("Fix: login page crashes on Safari!!")) =
        strChars ("crashes-safari-login-page-fix") := by
  refine ⟨by decide, ?_, by decide⟩
  have heq : slugWith enum = slugWith
      (pipelineWords (strChars ("Fix: login page crashes on Safari!!"))).dedup :=
    slugWith_eq_of_distinct_lengths h (List.Perm.refl _) (by decide)
  rw [heq]
  decide

theorem slug_example_c7_witness :
    AdmissibleEnum (strChars ("Fix: login page crashes on Safari!!"))
        [strChars ("safari"), strChars ("on"), strChars ("crashes"),
          strChars ("page"), strChars ("login"), strChars ("fix")] ∧
      ((pipelineWords (strChars ("Fix: login page crashes on Safari!!"))).dedup =
          [strChars ("fix"), strChars ("login"), strChars ("page"),
            strChars ("crashes"), strChars ("on"), strChars ("safari")] ∧
        slugWith [strChars ("safari"), strChars ("on"), strChars ("crashes"),
            strChars ("page"), strChars ("login"), strChars ("fix")] =
          strChars ("crashes-safari-login-page-fix") ∧
        get_slug_from_name (strChars ("Fix: login page crashes on Safari!!")) =
          strChars ("crashes-safari-login-page-fix")) :=
  ⟨by decide, slug_example_c7 _ (by decide)⟩

/-- C8 (counterexample): the tie-break of the length sort is not fixed — it
follows the unspecified iteration order of the Python `set`: on the title
`"b a"` both `["b", "a"]` and `["a", "b"]` are admissible enumerations of the
word set, and they produce different slugs (`"b-a"` versus `"a-b"`). -/
theorem slug_deterministic_c8_counterexample :
    AdmissibleEnum (strChars ("b a")) [strChars ("b"), strChars ("a")] ∧
      AdmissibleEnum (strChars ("b a")) [strChars ("a"), strChars ("b")] ∧
      slugWith [strChars ("b"), strChars ("a")] ≠
        slugWith [strChars ("a"), strChars ("b")] := by
  decide

/-- C8 (amended): `get_slug_from_name` is deterministic up to the `set`
iteration order, and whenever the distinct tokens of the title have pairwise
distinct lengths the slug is independent of that order: any two admissible
enumerations yield the same slug. -/
theorem slug_deterministic_c8 (s : List Char) (e1 e2 : List (List Char))
    (h1 : AdmissibleEnum s e1) (h2 : AdmissibleEnum s e2)
    (hlen : (pipelineWords s).dedup.Pairwise (fun a b => a.length ≠ b.length)) :
    slugWith e1 = slugWith e2 :=
  slugWith_eq_of_distinct_lengths h1 h2 hlen

theorem slug_deterministic_c8_witness :
    AdmissibleEnum (strChars ("ab c")) [strChars ("ab"), strChars ("c")] ∧
      AdmissibleEnum (strChars ("ab c")) [strChars ("c"), strChars ("ab")] ∧
      (pipelineWords (strChars ("ab c"))).dedup.Pairwise
        (fun a b => a.length ≠ b.length) ∧
      slugWith [strChars ("ab"), strChars ("c")] =
        slugWith [strChars ("c"), strChars ("ab")] :=
  ⟨by decide, by decide, by decide,
    slug_deterministic_c8 (strChars ("ab c")) _ _ (by decide) (by decide)
      (by decide)⟩

/-- C9: `get_slug_from_name` is total (its embedding returns a value for every
input); an empty or whitespace-only title yields the empty slug, and when the
title has fewer than five distinct words the slug's token list is a
permutation of all of them. -/
theorem slug_total_c9 (s : List Char) (enum : List (List Char))
    (h : AdmissibleEnum s enum) :
    (s.all pyIsSpace = true → slugWith enum = [] ∧ get_slug_from_name s = []) ∧
      (enum.length < 5 →
        ((sortByLenDesc enum).take 5).Perm (pipelineWords s).dedup) := by
  have hp : enum.Perm (pipelineWords s).dedup := h
  constructor
  · intro hsp
    have hwords : pipelineWords s = [] := by
      rw [pipelineWords_eq]
      unfold lowerLetterWords
      apply wordsBy_nil_of_all_sep
      intro c hc
      rcases List.mem_map.mp hc with ⟨a, ha, rfl⟩
      have hsa : pyIsSpace a = true := by
        rw [List.all_eq_true] at hsp
        exact hsp a ha
      rw [pyToLower_of_space hsa]
      simp [nonLz, pyIsSpace_isLowerAZ_false hsa]
    have hdnil : (pipelineWords s).dedup = [] := by
      rw [hwords]
      rfl
    have henil : enum = [] := by
      rw [hdnil] at hp
      exact hp.eq_nil
    constructor
    · rw [henil]
      rfl
    · unfold get_slug_from_name
      rw [hdnil]
      rfl
  · intro hlt
    have hle : (sortByLenDesc enum).length ≤ 5 := by
      have := (sortByLenDesc_perm enum).length_eq
      omega
    rw [List.take_of_length_le hle]
    exact (sortByLenDesc_perm enum).trans hp

theorem slug_total_c9_witness :
    AdmissibleEnum (strChars ("  ")) [] ∧
      (((strChars ("  ")).all pyIsSpace = true →
          slugWith [] = [] ∧ get_slug_from_name (strChars ("  ")) = []) ∧
        (([] : List (List Char)).length < 5 →
          ((sortByLenDesc ([] : List (List Char))).take 5).Perm
            (pipelineWords (strChars ("  "))).dedup)) :=
  ⟨by decide, slug_total_c9 (strChars ("  ")) [] (by decide)⟩

theorem natStrAux_fuel : ∀ f1 f2 n : Nat, n < f1 → n < f2 →
    natStrAux f1 n = natStrAux f2 n := by
  intro f1
  induction f1 with
  | zero =>
    intro f2 n h1 h2
    omega
  | succ f ih =>
    intro f2 n h1 h2
    cases f2 with
    | zero => omega
    | succ g =>
      by_cases hn : n < 10
      · rw [natStrAux, natStrAux, if_pos hn, if_pos hn]
      · rw [natStrAux, natStrAux, if_neg hn, if_neg hn]
        have hd : n / 10 < f := by omega
        have hg : n / 10 < g := by omega
        rw [ih g (n / 10) hd hg]

theorem natStr_of_lt_ten {n : Nat} (h : n < 10) : natStr n = [digitChar n] := by
  unfold natStr
  rw [natStrAux, if_pos h]

theorem natStr_step {n : Nat} (h : 10 ≤ n) :
    natStr n = natStr (n / 10) ++ [digitChar (n % 10)] := by
  unfold natStr
  rw [natStrAux, if_neg (by omega)]
  congr 1
  exact natStrAux_fuel n (n / 10 + 1) (n / 10) (by omega) (by omega)

theorem digitChar_isDigit {d : Nat} (h : d < 10) : (digitChar d).isDigit = true := by
  interval_cases d <;> decide

theorem digitChar_toNat {d : Nat} (h : d < 10) : (digitChar d).toNat - 48 = d := by
  interval_cases d <;> decide

theorem natStr_all_digits (n : Nat) : (natStr n).all Char.isDigit = true := by
  induction n using Nat.strong_induction_on with
  | _ n ih =>
    by_cases h : n < 10
    · rw [natStr_of_lt_ten h]
      simp [digitChar_isDigit h]
    · rw [natStr_step (by omega), List.all_append]
      have h1 := ih (n / 10) (Nat.div_lt_self (by omega) (by omega))
      have h2 := digitChar_isDigit (Nat.mod_lt n (by omega))
      simp [h1, h2]

theorem natStr_ne_nil (n : Nat) : natStr n ≠ [] := by
  by_cases h : n < 10
  · rw [natStr_of_lt_ten h]
    simp
  · rw [natStr_step (by omega)]
    simp

theorem intFromDigits_append (A : List Char) (c : Char) :
    intFromDigits (A ++ [c]) = 10 * intFromDigits A + (c.toNat - 48) := by
  unfold intFromDigits
  rw [List.foldl_append]
  rfl

theorem intFromDigits_natStr (n : Nat) : intFromDigits (natStr n) = n := by
  induction n using Nat.strong_induction_on with
  | _ n ih =>
    by_cases h : n < 10
    · rw [natStr_of_lt_ten h]
      show 10 * 0 + ((digitChar n).toNat - 48) = n
      rw [digitChar_toNat h]
      omega
    · rw [natStr_step (by omega), intFromDigits_append,
        ih (n / 10) (Nat.div_lt_self (by omega) (by omega)),
        digitChar_toNat (Nat.mod_lt n (by omega))]
      omega

theorem natStr_len_lower : ∀ k n : Nat, 10 ^ k ≤ n → k + 1 ≤ (natStr n).length := by
  intro k
  induction k with
  | zero =>
    intro n _
    cases hl : natStr n with
    | nil => exact absurd hl (natStr_ne_nil n)
    | cons a t => simp
  | succ k ih =>
    intro n h
    have hpow : (10 : Nat) ≤ 10 ^ (k + 1) := by
      calc (10 : Nat) = 10 ^ 1 := by norm_num
        _ ≤ 10 ^ (k + 1) := Nat.pow_le_pow_right (by omega) (by omega)
    have h10 : 10 ≤ n := le_trans hpow h
    rw [natStr_step h10, List.length_append]
    have hdiv : 10 ^ k ≤ n / 10 := by
      rw [Nat.le_div_iff_mul_le (by omega)]
      calc 10 ^ k * 10 = 10 ^ (k + 1) := by ring
        _ ≤ n := h
    have := ih (n / 10) hdiv
    simp only [List.length_cons, List.length_nil]
    omega

theorem natStr_len_upper : ∀ k n : Nat, n < 10 ^ k → (natStr n).length ≤ max 1 k := by
  intro k
  induction k with
  | zero =>
    intro n h
    have h0 : n = 0 := by
      simpa using h
    subst h0
    decide
  | succ k ih =>
    intro n h
    by_cases hn : n < 10
    · rw [natStr_of_lt_ten hn]
      simp
    · have h10 : 10 ≤ n := by omega
      rw [natStr_step h10, List.length_append]
      have hdiv : n / 10 < 10 ^ k := by
        rw [Nat.div_lt_iff_lt_mul (by omega)]
        calc n < 10 ^ (k + 1) := h
          _ = 10 ^ k * 10 := by ring
      have hk1 : 1 ≤ k := by
        by_contra hk
        have hk0 : k = 0 := by omega
        subst hk0
        norm_num at h
        omega
      have := ih (n / 10) hdiv
      simp only [List.length_cons, List.length_nil]
      omega

theorem takeWhile_append_sep {p : Char → Bool} {A B : List Char} {c : Char}
    (hA : ∀ a ∈ A, p a = true) (hc : p c = false) :
    (A ++ c :: B).takeWhile p = A := by
  induction A with
  | nil => simp [List.takeWhile_cons, hc]
  | cons a as ih =>
    have hpa : p a = true := hA a (List.mem_cons_self a as)
    rw [List.cons_append, List.takeWhile_cons, hpa]
    simp only [if_true]
    rw [ih fun x hx => hA x (List.mem_cons_of_mem a hx)]

theorem le_takeWhile_length {p : Char → Bool} :
    ∀ (l : List Char) (j : Nat), j ≤ l.length → (l.take j).all p = true →
      j ≤ (l.takeWhile p).length := by
  intro l
  induction l with
  | nil =>
    intro j hj _
    simpa using hj
  | cons a as ih =>
    intro j hj hall
    cases j with
    | zero => exact Nat.zero_le _
    | succ j =>
      rw [List.take_succ_cons, List.all_cons] at hall
      rcases Bool.and_eq_true_iff.mp hall with ⟨hpa, hrest⟩
      rw [List.takeWhile_cons, hpa]
      simp only [if_true, List.length_cons]
      have := ih j (by simpa using hj) hrest
      omega

theorem issueSearchFrom_none_small (name : List Char) :
    ∀ k, k ≤ 3 → issueSearchFrom name k = none := by
  intro k
  induction k with
  | zero => intro _; rfl
  | succ k ih =>
    intro hk
    rw [issueSearchFrom, if_neg fun hcon => absurd hcon.1 (by omega)]
    exact ih (by omega)

theorem issueSearchFrom_eq_some_iff (name : List Char) (m : Nat) :
    ∀ k, issueSearchFrom name k = some m ↔
      ∃ j, j ≤ k ∧ MatchAt name j ∧ m = intFromDigits (name.take j) ∧
        ∀ i, i ≤ k → MatchAt name i → i ≤ j := by
  intro k
  induction k with
  | zero =>
    constructor
    · intro h
      exact absurd h (by simp [issueSearchFrom])
    · rintro ⟨j, hj, hm, -, -⟩
      have hj0 : j = 0 := by omega
      subst hj0
      rcases hm with ⟨h4, -⟩
      omega
  | succ k ih =>
    by_cases hcond : MatchAt name (k + 1)
    · have heq : issueSearchFrom name (k + 1) =
          some (intFromDigits (name.take (k + 1))) := by
        rw [issueSearchFrom, if_pos hcond]
      constructor
      · intro h
        rw [heq] at h
        injection h with h
        exact ⟨k + 1, le_rfl, hcond, h.symm, fun i hi _ => hi⟩
      · rintro ⟨j, hj, hmj, hval, hmax⟩
        have hge : k + 1 ≤ j := hmax (k + 1) le_rfl hcond
        have hje : j = k + 1 := by omega
        subst hje
        rw [heq, hval]
    · have heq : issueSearchFrom name (k + 1) = issueSearchFrom name k := by
        rw [issueSearchFrom, if_neg hcond]
      rw [heq, ih]
      constructor
      · rintro ⟨j, hj, hmj, hval, hmax⟩
        refine ⟨j, by omega, hmj, hval, fun i hi hmi => ?_⟩
        rcases Nat.lt_or_ge i (k + 1) with hlt | hge
        · exact hmax i (by omega) hmi
        · have hie : i = k + 1 := by omega
          subst hie
          exact absurd hmi hcond
      · rintro ⟨j, hj, hmj, hval, hmax⟩
        have hjk : j ≤ k := by
          rcases Nat.lt_or_ge j (k + 1) with hlt | hge
          · omega
          · have hje : j = k + 1 := by omega
            subst hje
            exact absurd hmj hcond
        exact ⟨j, hjk, hmj, hval, fun i hi hmi => hmax i (by omega) hmi⟩

theorem matchAt_le_digit_run {name : List Char} {j : Nat} (h : MatchAt name j) :
    j ≤ (name.takeWhile Char.isDigit).length := by
  rcases h with ⟨-, hlt, hdig, -⟩
  exact le_takeWhile_length name j (by omega) hdig

/-- C4 (counterexample): the name `"1234\nx"` starts with four digits followed
by at least one more character, yet `issue_number` is absent (`None`): the
`(.+)` group cannot match across the newline. -/
theorem issue_number_c4_counterexample :
    4 ≤ ((strChars ("1234\nx")).takeWhile Char.isDigit).length ∧
      ((strChars ("1234\nx")).takeWhile Char.isDigit).length <
        (strChars ("1234\nx")).length ∧
      (IssueBranch.mk (strChars ("1234\nx")) sampleRemote).issue_number = none := by
  decide

/-- C4 (amended): `issue_number` never raises — it returns `some m` exactly
when the name admits a full match of `(\d{4,})(.+)`: a digit prefix of `k ≥ 4`
characters whose nonempty remainder contains no newline, where `k` is the
largest such count (so an all-digit name of length at least five parses to all
but its last digit), and `m` is `int` of that digit prefix; on every other
name the result is absent. -/
theorem issue_number_c4 (b : IssueBranch) (m : Nat) :
    b.issue_number = some m ↔
      ∃ k, MatchAt b.name k ∧ m = intFromDigits (b.name.take k) ∧
        ∀ j, MatchAt b.name j → j ≤ k := by
  unfold IssueBranch.issue_number
  rw [issueSearchFrom_eq_some_iff]
  constructor
  · rintro ⟨j, hj, hmj, hval, hmax⟩
    exact ⟨j, hmj, hval, fun i hmi => hmax i (matchAt_le_digit_run hmi) hmi⟩
  · rintro ⟨j, hmj, hval, hmax⟩
    exact ⟨j, matchAt_le_digit_run hmj, hmj, hval, fun i _ hmi => hmax i hmi⟩

/-- C10: a present `issue_number` need not be at least 1000: the branch name
`"0042fix"` has a four-digit prefix with leading zeros and parses back to the
integer 42, which is below 1000. -/
theorem issue_number_c10 :
    (IssueBranch.mk (strChars ("0042fix")) sampleRemote).issue_number = some 42 ∧
      42 < 1000 := by
  decide

/-- C3 (counterexample): for the slug `"a\nb"` — which contains a newline —
the branch generated for issue 1234 with the default separator does not parse
back: its `issue_number` is absent rather than 1234. -/
theorem branch_roundtrip_c3_counterexample :
    1000 ≤ 1234 ∧
      ((Issue.mk 1234 sampleRemote).branch (strChars ("a\nb")) ['/']).issue_number ≠
        some 1234 := by
  decide

/-- C3 (amended): for every remote, every newline-free slug and every issue
number `n`, the branch built with the default separator `"/"` parses back to
`some n` exactly when `n ≥ 1000`; for `n` below 1000 (e.g. issue 42) the
parsed issue number is absent. -/
theorem branch_roundtrip_c3 (R : Remote) (slug : List Char) (n : Nat)
    (hslug : slug.all (fun c => !(c = '\n')) = true) :
    ((Issue.mk n R).branch slug ['/']).issue_number =
      if 1000 ≤ n then some n else none := by
  have hname : ((Issue.mk n R).branch slug ['/']).name = natStr n ++ '/' :: slug := by
    unfold Issue.branch
    simp
  unfold IssueBranch.issue_number
  rw [hname]
  have hA : ∀ a ∈ natStr n, Char.isDigit a = true := by
    have hd := natStr_all_digits n
    rw [List.all_eq_true] at hd
    exact hd
  rw [takeWhile_append_sep hA (by decide)]
  by_cases h : 1000 ≤ n
  · rw [if_pos h]
    have h4 : 3 + 1 ≤ (natStr n).length := by
      refine natStr_len_lower 3 n ?_
      norm_num
      omega
    obtain ⟨d, hd⟩ : ∃ d, (natStr n).length = d + 1 :=
      ⟨(natStr n).length - 1, by omega⟩
    have hcond : MatchAt (natStr n ++ '/' :: slug) (d + 1) := by
      refine ⟨by omega, ?_, ?_, ?_⟩
      · rw [List.length_append]
        simp
        omega
      · rw [← hd, List.take_left]
        exact natStr_all_digits n
      · rw [← hd, List.drop_left]
        simp [List.all_eq_true] at hslug ⊢
        exact hslug
    rw [hd, issueSearchFrom, if_pos hcond, ← hd, List.take_left,
      intFromDigits_natStr]
  · rw [if_neg h]
    apply issueSearchFrom_none_small
    have hu : (natStr n).length ≤ max 1 3 := by
      refine natStr_len_upper 3 n ?_
      norm_num
      omega
    simp at hu
    omega

theorem branch_roundtrip_c3_witness :
    (strChars ("fix-bug")).all (fun c => !(c = '\n')) = true ∧
      ((Issue.mk 1234 sampleRemote).branch (strChars ("fix-bug")) ['/']).issue_number =
        (if 1000 ≤ 1234 then some 1234 else none) :=
  ⟨by decide, branch_roundtrip_c3 sampleRemote (strChars ("fix-bug")) 1234
    (by decide)⟩

/-- C5 (counterexample): with an empty separator the slug is dropped
entirely: `Issue(1234).branch("fix", sep="")` is named `"1234"`, not
`"1234fix"` — Python's `sep and sep + slug` yields the falsy `sep` itself. -/
theorem branch_name_c5_counterexample :
    ((Issue.mk 1234 sampleRemote).branch (strChars ("fix")) []).name =
        strChars ("1234") ∧
      ((Issue.mk 1234 sampleRemote).branch (strChars ("fix")) []).name ≠
        strChars ("1234fix") := by
  decide

/-- C5 (amended): `Issue.branch(slug, sep)` builds an `IssueBranch` whose
upstream is the issue's remote and whose name is `str(number) + sep + slug`
when `sep` is non-empty, and just `str(number)` — the slug is discarded —
when `sep` is empty. -/
theorem branch_name_c5 (i : Issue) (slug sep : List Char) :
    (i.branch slug sep).upstream = i.remote ∧
      (i.branch slug sep).name =
        natStr i.number ++ (if sep = [] then [] else sep ++ slug) := by
  unfold Issue.branch
  refine ⟨rfl, ?_⟩
  by_cases h : sep = []
  · rw [if_pos h, if_pos h, h]
  · rw [if_neg h, if_neg h]

/-- C6 (counterexample): a response without a `"title"` key makes
`get_issue_name` fail with a `ValueError` — which is not in the
`LookupError` class — mentioning the issue number. -/
theorem fetch_name_c6_counterexample :
    get_issue_name none 7 = Except.error
        ⟨PyExcClass.valueError, strChars ("invalid issue number 7")⟩ ∧
      isLookupErrorClass PyExcClass.valueError = false :=
  ⟨rfl, rfl⟩

/-- C6 (amended): when the collaborator response lacks a `"title"` field,
`Issue.fetch_name` (via `get_issue_name`) fails with a `ValueError` — not a
`LookupError`-class error — whose message names the offending issue number;
when the response has a title, that title string is returned. -/
theorem fetch_name_c6 (i : Issue) (t : List Char) :
    i.fetch_name none = Except.error
        ⟨PyExcClass.valueError,
          strChars ("invalid issue number ") ++ natStr i.number⟩ ∧
      isLookupErrorClass PyExcClass.valueError = false ∧
      i.fetch_name (some t) = Except.ok t :=
  ⟨rfl, rfl, rfl⟩

end Og
